/-
Verification of the stochrare time-series utilities and of the AMS
(Adaptive Multilevel Splitting) engine described in the specification.

Numbers are modelled by exact rationals (ℚ); numpy arrays by Lean lists.
The functions of `stochrare/timeseries.py` are translated directly from the
source.  The module `stochrare/rare/ams.py` is not part of the source tree
(only its unit tests are), so the AMS operations are modelled from the
specification, as indicated in each doc comment.
-/
import Mathlib

namespace Stochrare

/-! ## Embedding of `stochrare/timeseries.py` -/

/-- `np.cumsum`, recursively: running partial sums of a list, same length. -/
def cumsumFrom (acc : ℚ) : List ℚ → List ℚ
  | [] => []
  | a :: t => (acc + a) :: cumsumFrom (acc + a) t

/-- `np.cumsum x` with accumulator 0. -/
def np_cumsum (x : List ℚ) : List ℚ := cumsumFrom 0 x

/-- `running_mean(x, N)` from `stochrare/timeseries.py`:
`cumsum = np.cumsum(np.insert(x, 0, 0)); return (cumsum[N:] - cumsum[:-N]) / N`. -/
def running_mean (x : List ℚ) (N : ℕ) : List ℚ :=
  let cumsum := np_cumsum ((0 : ℚ) :: x)
  (List.zipWith (fun a b => a - b) (cumsum.drop N) (cumsum.take (cumsum.length - N))).map
    (fun a => a / (N : ℚ))

/-- The inner loop of `traj_fpt`: scan the zipped trajectory, and at the first
sample with `x > M` yield `t` and break; yield nothing if no sample exceeds `M`. -/
def fpt_one (M : ℚ) : List (ℚ × ℚ) → Option ℚ
  | [] => none
  | p :: rest => if M < p.2 then some p.1 else fpt_one M rest

/-- `traj_fpt(M, *args)` from `stochrare/timeseries.py`: for each trajectory
`(tt, xx)` iterate over `zip(tt, xx)` and yield the time of the first sample
whose state strictly exceeds `M`, skipping trajectories that never exceed it. -/
def traj_fpt (M : ℚ) (args : List (List ℚ × List ℚ)) : List ℚ :=
  args.filterMap (fun p => fpt_one M (p.1.zip p.2))

/-! ### Lemmas about the cumulative sum -/

theorem cumsumFrom_length (acc : ℚ) (x : List ℚ) :
    (cumsumFrom acc x).length = x.length := by
  induction x generalizing acc with
  | nil => rfl
  | cons a t ih => simp [cumsumFrom, ih]

theorem cumsumFrom_getD (acc : ℚ) (x : List ℚ) (j : ℕ) (hj : j < x.length) :
    (cumsumFrom acc x).getD j 0 = acc + (x.take (j + 1)).sum := by
  induction x generalizing acc j with
  | nil => simp at hj
  | cons a t ih =>
    cases j with
    | zero => simp [cumsumFrom]
    | succ j =>
      simp only [cumsumFrom, List.getD_cons_succ]
      rw [ih (acc + a) j (by simpa using hj)]
      simp [List.sum_cons, add_assoc]

theorem np_cumsum_zero_cons_getD (x : List ℚ) (j : ℕ) (hj : j ≤ x.length) :
    (np_cumsum ((0 : ℚ) :: x)).getD j 0 = (x.take j).sum := by
  have h : j < ((0 : ℚ) :: x).length := by simpa using Nat.lt_succ_of_le hj
  rw [np_cumsum, cumsumFrom_getD 0 _ j h]
  cases j with
  | zero => simp
  | succ j => simp [List.take_succ_cons]

theorem window_sum (x : List ℚ) (i N : ℕ) :
    (x.take (N + i)).sum - (x.take i).sum = (((x.drop i).take N)).sum := by
  have h : N + i = i + N := Nat.add_comm N i
  rw [h, List.take_add, List.sum_append]
  ring

/-- C9: for a 1-D array `x` of length `n` and a window size `N` with
`1 ≤ N ≤ n`, `running_mean x N` has length exactly `n - N + 1`, and its element
at index `i` equals `(x[i] + x[i+1] + … + x[i+N-1]) / N`. -/
theorem running_mean_spec (x : List ℚ) (N : ℕ) (h1 : 1 ≤ N) (h2 : N ≤ x.length) :
    (running_mean x N).length = x.length - N + 1 ∧
    ∀ i < x.length - N + 1,
      (running_mean x N).getD i 0 = ((x.drop i).take N).sum / (N : ℚ) := by
  have hclen : (np_cumsum ((0 : ℚ) :: x)).length = x.length + 1 := by
    simp [np_cumsum, cumsumFrom_length]
  have hlen : (running_mean x N).length = x.length - N + 1 := by
    simp only [running_mean, List.length_map, List.length_zipWith, List.length_drop,
      List.length_take, hclen]
    omega
  refine ⟨hlen, ?_⟩
  intro i hi
  have hi' : i < (running_mean x N).length := by rw [hlen]; exact hi
  have hb1 : N + i < (np_cumsum ((0 : ℚ) :: x)).length := by rw [hclen]; omega
  have hb2 : i < (np_cumsum ((0 : ℚ) :: x)).length := by rw [hclen]; omega
  have e1 : (np_cumsum ((0 : ℚ) :: x)).getD (N + i) 0 = (x.take (N + i)).sum :=
    np_cumsum_zero_cons_getD x (N + i) (by omega)
  have e2 : (np_cumsum ((0 : ℚ) :: x)).getD i 0 = (x.take i).sum :=
    np_cumsum_zero_cons_getD x i (by omega)
  rw [List.getD_eq_getElem _ _ hb1] at e1
  rw [List.getD_eq_getElem _ _ hb2] at e2
  rw [List.getD_eq_getElem _ _ hi']
  simp only [running_mean, List.getElem_map, List.getElem_zipWith, List.getElem_drop,
    List.getElem_take]
  rw [e1, e2, window_sum]

/-- Witness for C9 at the concrete input `x = [1, 2, 3, 4]`, `N = 2`. -/
theorem running_mean_spec_witness :
    (running_mean [(1 : ℚ), 2, 3, 4] 2).length = [(1 : ℚ), 2, 3, 4].length - 2 + 1 ∧
    ∀ i < [(1 : ℚ), 2, 3, 4].length - 2 + 1,
      (running_mean [(1 : ℚ), 2, 3, 4] 2).getD i 0 =
        (([(1 : ℚ), 2, 3, 4].drop i).take 2).sum / (2 : ℚ) :=
  running_mean_spec [(1 : ℚ), 2, 3, 4] 2 (by decide) (by decide)

/-- `fpt_one` yields nothing when no state strictly exceeds the threshold. -/
theorem fpt_one_none (M : ℚ) (l : List (ℚ × ℚ)) (h : ∀ q ∈ l, q.2 ≤ M) :
    fpt_one M l = none := by
  induction l with
  | nil => rfl
  | cons p rest ih =>
    have hp : p.2 ≤ M := h p (List.mem_cons_self p rest)
    simp only [fpt_one, if_neg (not_lt.mpr hp)]
    exact ih (fun q hq => h q (List.mem_cons_of_mem p hq))

/-- `fpt_one` yields the time of the first sample strictly exceeding the
threshold. -/
theorem fpt_one_first (M : ℚ) (l : List (ℚ × ℚ)) (i : ℕ) (hi : i < l.length)
    (hc : M < (l.getD i (0, 0)).2) (hf : ∀ j < i, (l.getD j (0, 0)).2 ≤ M) :
    fpt_one M l = some (l.getD i (0, 0)).1 := by
  induction l generalizing i with
  | nil => simp at hi
  | cons p rest ih =>
    cases i with
    | zero =>
      simp only [List.getD_cons_zero] at hc ⊢
      simp [fpt_one, if_pos hc]
    | succ i =>
      have hp : p.2 ≤ M := by
        have := hf 0 (Nat.succ_pos i)
        simpa using this
      simp only [List.getD_cons_succ] at hc ⊢
      simp only [fpt_one, if_neg (not_lt.mpr hp)]
      exact ih i (by simpa using hi) hc
        (fun j hj => by simpa using hf (j + 1) (Nat.succ_lt_succ hj))

/-- C10: `traj_fpt M` yields, for each trajectory `(tt, xx)` with matching
lengths, the time at the first sample whose state strictly exceeds `M`; it
yields nothing for a trajectory never strictly exceeding `M`; and the number
of yielded values is at most the number of trajectories. -/
theorem traj_fpt_spec (M : ℚ) (args : List (List ℚ × List ℚ)) :
    traj_fpt M args = args.filterMap (fun p => fpt_one M (p.1.zip p.2)) ∧
    (∀ tt xx : List ℚ, tt.length = xx.length → (∀ q ∈ xx, q ≤ M) →
      fpt_one M (tt.zip xx) = none) ∧
    (∀ tt xx : List ℚ, ∀ i : ℕ, tt.length = xx.length → i < xx.length →
      M < xx.getD i 0 → (∀ j < i, xx.getD j 0 ≤ M) →
      fpt_one M (tt.zip xx) = some (tt.getD i 0)) ∧
    (traj_fpt M args).length ≤ args.length := by
  refine ⟨rfl, ?_, ?_, List.length_filterMap_le _ _⟩
  · intro tt xx _ h
    exact fpt_one_none M (tt.zip xx)
      (fun q hq => h q.2 (List.of_mem_zip hq).2)
  · intro tt xx i hlen hi hc hf
    have hzl : (tt.zip xx).length = xx.length := by
      simp [List.length_zip, hlen]
    have hiz : i < (tt.zip xx).length := by rw [hzl]; exact hi
    have hget : ∀ j : ℕ, j < xx.length → (tt.zip xx).getD j (0, 0) =
        (tt.getD j 0, xx.getD j 0) := by
      intro j hj
      have hjt : j < tt.length := by rw [hlen]; exact hj
      have hjz : j < (tt.zip xx).length := by rw [hzl]; exact hj
      rw [List.getD_eq_getElem _ _ hjz, List.getD_eq_getElem _ _ hjt,
        List.getD_eq_getElem _ _ hj, List.getElem_zip]
    have := fpt_one_first M (tt.zip xx) i hiz
      (by rw [hget i hi]; exact hc)
      (fun j hj => by
        rw [hget j (lt_trans hj hi)]
        exact hf j hj)
    rw [this, hget i hi]

/-- Witness for C10 at concrete trajectories: `([0, 1], [0, 2])` crosses
the threshold 1 at time 1, `([0], [0])` never crosses it. -/
theorem traj_fpt_spec_witness :
    fpt_one 1 ([(0 : ℚ), 1].zip [(0 : ℚ), 2]) = some ([(0 : ℚ), 1].getD 1 0) ∧
    fpt_one 1 ([(0 : ℚ)].zip [(0 : ℚ)]) = none :=
  ⟨(traj_fpt_spec 1 []).2.2.1 [0, 1] [0, 2] 1 rfl (by decide) (by decide)
      (by decide),
    (traj_fpt_spec 1 []).2.1 [0] [0] rfl (by decide)⟩

/-! ## Embedding of the AMS engine (`stochrare/rare/ams.py`)

The module itself is not part of the source tree; only its unit tests are.
The operations below are therefore modelled from the specification
(§4.1–§4.4 of the design document), each doc comment saying so. -/

/-- Modelled from the spec: `TAMS.getlevel` of the missing
`stochrare/rare/ams.py` (§4.1): apply the score function to every
(time, state) sample of the trajectory and return the maximum value
observed; undefined (here `⊥`, the error value) on empty trajectories. -/
def getlevel (score : ℚ → ℚ → ℚ) (t x : List ℚ) : WithBot ℚ :=
  ((t.zip x).map (fun p => score p.1 p.2)).maximum

/-- Recursion over the zipped trajectory for `getcrossingtime`. -/
def getcrossingtimeAux (score : ℚ → ℚ → ℚ) (thr : ℚ) :
    List (ℚ × ℚ) → Option (ℕ × ℚ)
  | [] => none
  | p :: rest =>
    if thr < score p.1 p.2 then some (0, score p.1 p.2)
    else (getcrossingtimeAux score thr rest).map (fun q => (q.1 + 1, q.2))

/-- Modelled from the spec: `TAMS.getcrossingtime` of the missing
`stochrare/rare/ams.py` (§4.1): scan the trajectory in time order and return
the first index whose score strictly exceeds the threshold, together with the
score there; `none` (the loud error) when no sample exceeds the threshold. -/
def getcrossingtime (score : ℚ → ℚ → ℚ) (thr : ℚ) (t x : List ℚ) :
    Option (ℕ × ℚ) :=
  getcrossingtimeAux score thr (t.zip x)

/-- Modelled from the spec: `TAMS.selectionstep` of the missing
`stochrare/rare/ams.py` (§4.2): take the sorted distinct values of the levels
vector; if their number is ≤ `npart`, return empty kill and survive sets
(degenerate selection); otherwise kill every index whose level is among the
`npart` smallest distinct values (all ties included, ascending indices) and
let the survive set be the complementary index set. -/
def selectionstep (levels : List ℚ) (npart : ℕ) : List ℕ × List ℕ :=
  let d := levels.dedup
  if d.length ≤ npart then ([], [])
  else
    let sorted := List.insertionSort (· ≤ ·) d
    let small := sorted.take npart
    ((List.range levels.length).filter (fun i => levels.getD i 0 ∈ small),
      (List.range levels.length).filter (fun i => levels.getD i 0 ∉ small))

/-- Modelled from the spec: `TAMS.resample` of the missing
`stochrare/rare/ams.py` (§4.3): the output time grid is the donor's grid; at
indices whose time is ≤ the branch time the donor's state is reused exactly;
past the branch time the state comes from the trajectory provider restarted at
the branch point (`provider branchTime branchState gridTime`, fresh noise
abstracted as the provider function). -/
def resample (provider : ℚ → ℚ → ℚ → ℚ) (t x : ℚ) (told xold : List ℚ) :
    List ℚ × List ℚ :=
  (told, (told.zip xold).map (fun p => if p.1 ≤ t then p.2 else provider t x p.1))

/-- The mutable state of the TAMS controller: the ensemble of trajectories,
the probability weight, and the cached levels vector. -/
structure AMSState where
  ensemble : List (List ℚ × List ℚ)
  weight : ℚ
  levels : List ℚ

/-- Modelled from the spec: `TAMS.initialize_ensemble` of the missing
`stochrare/rare/ams.py` (§4.4): draw `N` independent trajectories from the
provider on a common time grid, set the weight to 1 and cache the levels. -/
def initialize_ensemble (score : ℚ → ℚ → ℚ) (grid : List ℚ)
    (provider : ℕ → List ℚ) (N : ℕ) : AMSState :=
  let ens := (List.range N).map (fun i => (grid, provider i))
  { ensemble := ens
    weight := 1
    levels := ens.map (fun tr => (getlevel score tr.1 tr.2).unbot' 0) }

/-- Modelled from the spec: `TAMS.mutationstep` of the missing
`stochrare/rare/ams.py` (§4.4): for every killed index, branch at the killed
particle's crossing point of the eliminated level and clone a donor chosen from
the survive set (`donor` abstracts the random draw); then multiply the weight
once by `1 - |kill| / N` and recompute the levels. -/
def mutationstep (provider : ℚ → ℚ → ℚ → ℚ) (score : ℚ → ℚ → ℚ)
    (donor : ℕ → ℕ) (kill survive : List ℕ) (st : AMSState) : AMSState :=
  let N := st.ensemble.length
  let ens := kill.foldl (fun ens k =>
    let ktr := st.ensemble.getD k ([], [])
    let lev := st.levels.getD k 0
    let dtr := st.ensemble.getD (survive.getD (donor k) 0) ([], [])
    match getcrossingtime score lev ktr.1 ktr.2 with
    | some (i, _) =>
      ens.set k (resample provider (ktr.1.getD i 0) (ktr.2.getD i 0) dtr.1 dtr.2)
    | none => ens) st.ensemble
  { ensemble := ens
    weight := st.weight * (1 - (kill.length : ℚ) / (N : ℚ))
    levels := ens.map (fun tr => (getlevel score tr.1 tr.2).unbot' 0) }

/-! ### Selection engine: correctness of the kill set -/

/-- In a strictly sorted list, membership in the first `k` entries is
equivalent to membership together with fewer than `k` smaller entries. -/
theorem mem_take_of_sorted_lt {s : List ℚ} (hs : List.Sorted (· < ·) s)
    (k : ℕ) (v : ℚ) :
    v ∈ s.take k ↔ v ∈ s ∧ (s.filter (fun u => u < v)).length < k := by
  induction s generalizing k with
  | nil => simp
  | cons a t ih =>
    have ha : ∀ b ∈ t, a < b := (List.sorted_cons.mp hs).1
    have ht : List.Sorted (· < ·) t := (List.sorted_cons.mp hs).2
    cases k with
    | zero => simp
    | succ k =>
      by_cases hv : v = a
      · subst hv
        have hfil : t.filter (fun u => u < v) = [] :=
          List.filter_eq_nil_iff.mpr (fun b hb => by
            simp [not_lt_of_gt (ha b hb)])
        simp [List.take_succ_cons, List.filter_cons, lt_irrefl, hfil]
      · by_cases hvt : v ∈ t
        · have hav : a < v := ha v hvt
          have hfc : (a :: t).filter (fun u => u < v)
              = a :: t.filter (fun u => u < v) := by
            simp [List.filter_cons, hav]
          simp only [List.take_succ_cons, List.mem_cons, hfc, List.length_cons]
          rw [ih ht k]
          constructor
          · rintro (hmem | ⟨hmem, hlt⟩)
            · exact absurd hmem hv
            · exact ⟨Or.inr hmem, by omega⟩
          · rintro ⟨hmem | hmem, hlt⟩
            · exact absurd hmem hv
            · exact Or.inr ⟨hmem, by omega⟩
        · constructor
          · intro hmem
            rcases List.mem_cons.mp hmem with hmem | hmem
            · exact absurd hmem hv
            · exact absurd (List.mem_of_mem_take hmem) hvt
          · rintro ⟨hmem, -⟩
            rcases List.mem_cons.mp hmem with hmem | hmem
            · exact absurd hmem hv
            · exact absurd hmem hvt

/-- The sorted list of distinct levels used by `selectionstep`. -/
theorem sorted_dedup_lt (L : List ℚ) :
    List.Sorted (· < ·) (List.insertionSort (· ≤ ·) L.dedup) :=
  (List.sorted_insertionSort (· ≤ ·) L.dedup).lt_of_le
    ((List.perm_insertionSort (· ≤ ·) L.dedup).nodup_iff.mpr (List.nodup_dedup L))

/-- C1: when `npart` is smaller than the number of distinct levels, the kill
set of `selectionstep` consists exactly of the indices whose level is among
the `npart` smallest distinct values (all ties included, i.e. the indices `i`
such that fewer than `npart` distinct values lie strictly below `L[i]`), in
strictly ascending index order. -/
theorem selectionstep_kill_spec (L : List ℚ) (npart : ℕ)
    (h : npart < L.dedup.length) :
    List.Sorted (· < ·) (selectionstep L npart).1 ∧
    ∀ i : ℕ, i ∈ (selectionstep L npart).1 ↔
      i < L.length ∧
        (L.dedup.filter (fun u => u < L.getD i 0)).length < npart := by
  have hperm := List.perm_insertionSort (· ≤ ·) L.dedup
  have hless :
      (selectionstep L npart).1 = (List.range L.length).filter
        (fun i => L.getD i 0 ∈ (List.insertionSort (· ≤ ·) L.dedup).take npart) := by
    simp [selectionstep, not_le.mpr h]
  constructor
  · rw [hless]
    exact (List.pairwise_lt_range L.length).filter _
  · intro i
    rw [hless]
    simp only [List.mem_filter, List.mem_range, decide_eq_true_eq]
    constructor
    · rintro ⟨hi, hmem⟩
      have := (mem_take_of_sorted_lt (sorted_dedup_lt L) npart (L.getD i 0)).mp hmem
      exact ⟨hi, by rw [← (hperm.filter _).length_eq]; exact this.2⟩
    · rintro ⟨hi, hcnt⟩
      refine ⟨hi, (mem_take_of_sorted_lt (sorted_dedup_lt L) npart (L.getD i 0)).mpr
        ⟨?_, ?_⟩⟩
      · rw [hperm.mem_iff, List.mem_dedup, List.getD_eq_getElem L 0 hi]
        exact List.getElem_mem hi
      · rw [(hperm.filter _).length_eq]
        exact hcnt

/-- Witness for C1 at `L = [5, 11, 2, 6, 2, 5]` and `npart = 2` (the shape of
the unit-test vector): the kill set is `[0, 2, 4, 5]`. -/
theorem selectionstep_kill_spec_witness :
    (List.Sorted (· < ·) (selectionstep [(5 : ℚ), 11, 2, 6, 2, 5] 2).1 ∧
      ∀ i : ℕ, i ∈ (selectionstep [(5 : ℚ), 11, 2, 6, 2, 5] 2).1 ↔
        i < [(5 : ℚ), 11, 2, 6, 2, 5].length ∧
          ([(5 : ℚ), 11, 2, 6, 2, 5].dedup.filter
            (fun u => u < [(5 : ℚ), 11, 2, 6, 2, 5].getD i 0)).length < 2) ∧
    (selectionstep [(5 : ℚ), 11, 2, 6, 2, 5] 2).1 = [0, 2, 4, 5] :=
  ⟨selectionstep_kill_spec [(5 : ℚ), 11, 2, 6, 2, 5] 2 (by decide), by decide⟩

/-- C2: when `npart` is at least the number of distinct levels,
`selectionstep` returns empty kill and survive sets instead of failing. -/
theorem selectionstep_degenerate (L : List ℚ) (npart : ℕ)
    (h : L.dedup.length ≤ npart) :
    selectionstep L npart = ([], []) := by
  simp [selectionstep, h]

/-- Witness for C2 at `L = [5, 11, 2, 6, 2, 5]` (4 distinct values) and
`npart = 4`. -/
theorem selectionstep_degenerate_witness :
    selectionstep [(5 : ℚ), 11, 2, 6, 2, 5] 4 = ([], []) :=
  selectionstep_degenerate [(5 : ℚ), 11, 2, 6, 2, 5] 4 (by decide)

/-! ### Level tracker -/

/-- `getcrossingtimeAux` returns the first strict crossing of the scanned
list. -/
theorem getcrossingtimeAux_first (score : ℚ → ℚ → ℚ) (thr : ℚ)
    (l : List (ℚ × ℚ)) (i : ℕ) (hi : i < l.length)
    (hc : thr < score (l.getD i (0, 0)).1 (l.getD i (0, 0)).2)
    (hf : ∀ j < i, score (l.getD j (0, 0)).1 (l.getD j (0, 0)).2 ≤ thr) :
    getcrossingtimeAux score thr l
      = some (i, score (l.getD i (0, 0)).1 (l.getD i (0, 0)).2) := by
  induction l generalizing i with
  | nil => simp at hi
  | cons p rest ih =>
    cases i with
    | zero =>
      simp only [List.getD_cons_zero] at hc ⊢
      simp [getcrossingtimeAux, if_pos hc]
    | succ i =>
      have hp : score p.1 p.2 ≤ thr := by
        have := hf 0 (Nat.succ_pos i)
        simpa using this
      simp only [List.getD_cons_succ] at hc ⊢
      simp only [getcrossingtimeAux, if_neg (not_lt.mpr hp)]
      rw [ih i (by simpa using hi) hc
        (fun j hj => by simpa using hf (j + 1) (Nat.succ_lt_succ hj))]
      rfl

/-- C4: on a trajectory whose score strictly exceeds the threshold somewhere,
`getcrossingtime` returns the pair `(i, s)` where `i` is the first index in
time order whose score strictly exceeds the threshold and `s` is the score at
that index. -/
theorem getcrossingtime_first (score : ℚ → ℚ → ℚ) (thr : ℚ) (t x : List ℚ)
    (i : ℕ) (hi : i < (t.zip x).length)
    (hc : thr < score ((t.zip x).getD i (0, 0)).1 ((t.zip x).getD i (0, 0)).2)
    (hf : ∀ j < i,
      score ((t.zip x).getD j (0, 0)).1 ((t.zip x).getD j (0, 0)).2 ≤ thr) :
    getcrossingtime score thr t x
      = some (i, score ((t.zip x).getD i (0, 0)).1 ((t.zip x).getD i (0, 0)).2) :=
  getcrossingtimeAux_first score thr (t.zip x) i hi hc hf

/-- Witness for C4 at the trajectory `t = [0, 1, 2]`, `x = [1, 2, 0]`, score
`(t, x) ↦ x`, threshold `3/2`: the first crossing is at index 1 with score 2. -/
theorem getcrossingtime_first_witness :
    getcrossingtime (fun _ x => x) (3 / 2) [0, 1, 2] [1, 2, 0]
      = some (1, (fun (_ x : ℚ) => x)
          ((([(0 : ℚ), 1, 2].zip [(1 : ℚ), 2, 0]).getD 1 (0, 0)).1)
          ((([(0 : ℚ), 1, 2].zip [(1 : ℚ), 2, 0]).getD 1 (0, 0)).2)) :=
  getcrossingtime_first (fun _ x => x) (3 / 2) [0, 1, 2] [1, 2, 0] 1
    (by decide) (by norm_num) (by
      intro j hj
      interval_cases j
      norm_num)

/-- No strict crossing along the scanned list means the scan returns `none`. -/
theorem getcrossingtimeAux_none (score : ℚ → ℚ → ℚ) (thr : ℚ)
    (l : List (ℚ × ℚ)) (h : ∀ p ∈ l, score p.1 p.2 ≤ thr) :
    getcrossingtimeAux score thr l = none := by
  induction l with
  | nil => rfl
  | cons p rest ih =>
    simp only [getcrossingtimeAux,
      if_neg (not_lt.mpr (h p (List.mem_cons_self p rest)))]
    rw [ih (fun q hq => h q (List.mem_cons_of_mem p hq))]
    rfl

/-- C8: on a trajectory in which no sample's score strictly exceeds the
threshold, `getcrossingtime` returns the distinguishable error value `none`
rather than a sentinel or misleading default index. -/
theorem getcrossingtime_no_crossing (score : ℚ → ℚ → ℚ) (thr : ℚ)
    (t x : List ℚ) (h : ∀ p ∈ t.zip x, score p.1 p.2 ≤ thr) :
    getcrossingtime score thr t x = none :=
  getcrossingtimeAux_none score thr (t.zip x) h

/-- Witness for C8: the trajectory `t = [0, 1]`, `x = [1, 2]` never exceeds
the threshold 10, so the crossing lookup errors out with `none`. -/
theorem getcrossingtime_no_crossing_witness :
    getcrossingtime (fun _ x => x) 10 [(0 : ℚ), 1] [(1 : ℚ), 2] = none :=
  getcrossingtime_no_crossing (fun _ x => x) 10 [0, 1] [1, 2] (by decide)

/-- C5: `getlevel` equals the maximum score over the samples of a non-empty
trajectory (`getlevel = m` exactly when `m` is an attained upper bound of the
scores), and is the error value `⊥` on an empty trajectory. -/
theorem getlevel_spec (score : ℚ → ℚ → ℚ) (t x : List ℚ) (m : ℚ) :
    (getlevel score t x = (m : WithBot ℚ) ↔
      m ∈ (t.zip x).map (fun p => score p.1 p.2) ∧
        ∀ s ∈ (t.zip x).map (fun p => score p.1 p.2), s ≤ m) ∧
    (t.zip x = [] → getlevel score t x = ⊥) := by
  constructor
  · exact List.maximum_eq_coe_iff
  · intro h
    simp [getlevel, h]

/-- Witness for C5: on the trajectory `t = [0, 1]`, `x = [5, 2]` with score
`(t, x) ↦ x` the level is 5; the empty-trajectory branch follows by applying
the theorem at `t = x = []`. -/
theorem getlevel_spec_witness :
    getlevel (fun _ x => x) [(0 : ℚ), 1] [(5 : ℚ), 2] = ((5 : ℚ) : WithBot ℚ) ∧
    getlevel (fun _ x => x) ([] : List ℚ) ([] : List ℚ) = ⊥ :=
  ⟨(getlevel_spec (fun _ x => x) [(0 : ℚ), 1] [(5 : ℚ), 2] 5).1.mpr
      (by constructor <;> decide),
    (getlevel_spec (fun _ x => x) [] [] 0).2 rfl⟩

/-! ### Resampler, initialization and mutation -/

/-- C6: resampling from a donor trajectory at a branch time lying on the
donor's grid returns a trajectory on exactly the donor's time grid, whose
state at every index with time ≤ the branch time is the donor's state at that
index, reused exactly. -/
theorem resample_spec (provider : ℚ → ℚ → ℚ → ℚ) (t x : ℚ)
    (told xold : List ℚ) (hlen : told.length = xold.length) (_hgrid : t ∈ told) :
    (resample provider t x told xold).1 = told ∧
    (resample provider t x told xold).2.length = told.length ∧
    ∀ i < told.length, told.getD i 0 ≤ t →
      (resample provider t x told xold).2.getD i 0 = xold.getD i 0 := by
  refine ⟨rfl, ?_, ?_⟩
  · simp [resample, List.length_zip, hlen]
  · intro i hi hle
    have hxi : i < xold.length := hlen ▸ hi
    have hzi : i < (told.zip xold).length := by
      simp only [List.length_zip, hlen, min_self]
      exact hxi
    have hmi : i <
        ((told.zip xold).map
          (fun p => if p.1 ≤ t then p.2 else provider t x p.1)).length := by
      simpa using hzi
    rw [List.getD_eq_getElem told 0 hi] at hle
    simp only [resample] at hmi ⊢
    rw [List.getD_eq_getElem _ _ hmi, List.getD_eq_getElem _ _ hxi,
      List.getElem_map, List.getElem_zip]
    exact if_pos hle

/-- Witness for C6: branch at time 1 on the grid `[0, 1, 2]` with donor states
`[5, 6, 7]`; the grid is reused and the prefix `[5, 6]` is preserved. -/
theorem resample_spec_witness :
    (resample (fun _ _ _ => 0) 1 6 [(0 : ℚ), 1, 2] [(5 : ℚ), 6, 7]).1
        = [(0 : ℚ), 1, 2] ∧
    (resample (fun _ _ _ => 0) 1 6 [(0 : ℚ), 1, 2] [(5 : ℚ), 6, 7]).2.length
        = [(0 : ℚ), 1, 2].length ∧
    ∀ i < [(0 : ℚ), 1, 2].length, [(0 : ℚ), 1, 2].getD i 0 ≤ 1 →
      (resample (fun _ _ _ => 0) 1 6 [(0 : ℚ), 1, 2] [(5 : ℚ), 6, 7]).2.getD i 0
        = [(5 : ℚ), 6, 7].getD i 0 :=
  resample_spec (fun _ _ _ => 0) 1 6 [(0 : ℚ), 1, 2] [(5 : ℚ), 6, 7] rfl
    (by decide)

/-- C7: `initialize_ensemble` produces exactly `N` trajectories, all on the
same time grid, sets the weight to exactly 1 and produces a levels vector of
length exactly `N`. -/
theorem initialize_ensemble_spec (score : ℚ → ℚ → ℚ) (grid : List ℚ)
    (provider : ℕ → List ℚ) (N : ℕ) :
    (initialize_ensemble score grid provider N).ensemble.length = N ∧
    (∀ tr ∈ (initialize_ensemble score grid provider N).ensemble, tr.1 = grid) ∧
    (initialize_ensemble score grid provider N).weight = 1 ∧
    (initialize_ensemble score grid provider N).levels.length = N := by
  refine ⟨by simp [initialize_ensemble], ?_, rfl, by simp [initialize_ensemble]⟩
  intro tr htr
  simp only [initialize_ensemble, List.mem_map, List.mem_range] at htr
  obtain ⟨i, -, hi⟩ := htr
  rw [← hi]

/-- Witness for C7 at a concrete ensemble of size 2 on the grid `[0, 1]`. -/
theorem initialize_ensemble_spec_witness :
    (initialize_ensemble (fun _ x => x) [(0 : ℚ), 1]
        (fun _ => [(3 : ℚ), 4]) 2).ensemble.length = 2 ∧
    (∀ tr ∈ (initialize_ensemble (fun _ x => x) [(0 : ℚ), 1]
        (fun _ => [(3 : ℚ), 4]) 2).ensemble, tr.1 = [(0 : ℚ), 1]) ∧
    (initialize_ensemble (fun _ x => x) [(0 : ℚ), 1]
        (fun _ => [(3 : ℚ), 4]) 2).weight = 1 ∧
    (initialize_ensemble (fun _ x => x) [(0 : ℚ), 1]
        (fun _ => [(3 : ℚ), 4]) 2).levels.length = 2 :=
  initialize_ensemble_spec (fun _ x => x) [(0 : ℚ), 1] (fun _ => [(3 : ℚ), 4]) 2

/-- C3: one `mutationstep` killing `k = |kill|` particles on an ensemble of
size `N` multiplies the weight once by `1 - k / N` (not once per killed
particle). -/
theorem mutationstep_weight (provider : ℚ → ℚ → ℚ → ℚ) (score : ℚ → ℚ → ℚ)
    (donor : ℕ → ℕ) (kill survive : List ℕ) (st : AMSState) :
    (mutationstep provider score donor kill survive st).weight
      = st.weight * (1 - (kill.length : ℚ) / (st.ensemble.length : ℚ)) := rfl

end Stochrare
